import Mathlib

/-!
Verification of the JSON extraction/repair pipeline in
`langroid/parsing/json.py`.

The module under study extracts brace-delimited candidate substrings from
free-form text (via pyparsing's `originalTextFor(nestedExpr("{", "}"))`,
whose balanced-brace, quote-opaque scanning we model as the explicit
automaton described in the specification, section 4.1), normalizes spurious
escape sequences, repairs unquoted bareword values after a colon (via
`re.sub`), validates candidates with a strict JSON parse (`json.loads`,
modelled here as a recursive-descent parser over `List Char`, including the
`NaN` / `Infinity` / `-Infinity` constants that Python's decoder accepts),
and projects top-level fields from the first valid candidate.

Strings are modelled as `List Char` wrapped in `String`; parsed JSON string
payloads and number literals are kept as their raw (undecoded) character
sequences, which is faithful for every comparison the code performs on the
inputs considered here.
-/

namespace Langroid

/-- Whitespace characters skipped by Python's JSON decoder (space, tab,
linefeed, carriage return). -/
def isJsonWs (c : Char) : Bool :=
  c = ' ' || c = '\t' || c = '\n' || c = '\r'

/-- Whitespace matched by the `\s` class of the repair regex.  The regex is a
Python `str` pattern, so `\s` matches Unicode whitespace: exactly
U+0009-U+000D, U+001C-U+0020, U+0085, U+00A0, U+1680, U+2000-U+200A,
U+2028-U+2029, U+202F, U+205F and U+3000 (CPython's `Py_UNICODE_ISSPACE`
set). -/
def isSubWs (c : Char) : Bool :=
  (0x09 ≤ c.toNat && c.toNat ≤ 0x0d) || (0x1c ≤ c.toNat && c.toNat ≤ 0x20) ||
  c.toNat = 0x85 || c.toNat = 0xa0 || c.toNat = 0x1680 ||
  (0x2000 ≤ c.toNat && c.toNat ≤ 0x200a) || c.toNat = 0x2028 ||
  c.toNat = 0x2029 || c.toNat = 0x202f || c.toNat = 0x205f || c.toNat = 0x3000

/-- First character of a bareword in the repair regex: `[a-zA-Z_]`. -/
def barewordStart (c : Char) : Bool :=
  ('a' ≤ c && c ≤ 'z') || ('A' ≤ c && c ≤ 'Z') || c = '_'

/-- Continuation character of a bareword: `[a-zA-Z_0-9\-]`. -/
def barewordCont (c : Char) : Bool :=
  barewordStart c || c.isDigit || c = '-'

/-- Hexadecimal digit, for `\uXXXX` escapes inside JSON strings. -/
def isHexDigit (c : Char) : Bool :=
  c.isDigit || ('a' ≤ c && c ≤ 'f') || ('A' ≤ c && c ≤ 'F')

/-- Skip JSON whitespace. -/
def skipWs (l : List Char) : List Char :=
  l.dropWhile isJsonWs

/-- JSON values as produced by `json.loads`.  String payloads and number
literals are kept as raw character sequences; object members are kept in
appearance order (lookup takes the last binding, like a Python dict built
from repeated keys). -/
inductive Json where
  | null
  | bool (b : Bool)
  | num (lit : List Char)
  | str (chars : List Char)
  | arr (elems : List Json)
  | obj (members : List (List Char × Json))

instance : Inhabited Json := ⟨Json.null⟩

/-- Parsing mode of the recursive-descent JSON parser: a single value, the
members of an object after its `\x7b`, or the elements of an array after its
`[`. -/
inductive PMode where
  | value
  | members (acc : List (List Char × Json))
  | elems (acc : List Json)

/-- Exactly four hexadecimal digits (the `XXXX` of a `\uXXXX` escape),
returned with the rest of the input. -/
def parseHex4 : List Char → Option (List Char × List Char)
  | h1 :: h2 :: h3 :: h4 :: rest3 =>
    if isHexDigit h1 && isHexDigit h2 && isHexDigit h3 && isHexDigit h4 then
      some ([h1, h2, h3, h4], rest3)
    else none
  | _ => none

/-- The code of an escape sequence after the backslash: one of the eight
simple escape characters, or `u` followed by four hex digits.  Anything else
is an invalid escape, rejected as by Python's strict decoder. -/
def parseEscCode : List Char → Option (List Char × List Char)
  | [] => none
  | e :: rest2 =>
    if e = '"' || e = '\\' || e = '/' || e = 'b' || e = 'f' || e = 'n'
        || e = 'r' || e = 't' then
      some ([e], rest2)
    else if e = 'u' then
      match parseHex4 rest2 with
      | some (hs, rest3) => some (e :: hs, rest3)
      | none => none
    else none

/-- Body of a JSON string literal after the opening quote: consumes up to
and including the closing quote, returning the raw (undecoded) contents and
the rest.  Rejects invalid escapes and raw control characters, exactly as
Python's strict decoder does. -/
def parseStrBody : Nat → List Char → Option (List Char × List Char)
  | 0, _ => none
  | Nat.succ _, [] => none
  | Nat.succ fuel, c :: rest =>
    if c = '"' then some ([], rest)
    else if c = '\\' then
      match parseEscCode rest with
      | some (ec, rest2) =>
        match parseStrBody fuel rest2 with
        | some (cs, r) => some (c :: (ec ++ cs), r)
        | none => none
      | none => none
    else if c.toNat < 32 then none
    else
      match parseStrBody fuel rest with
      | some (cs, r) => some (c :: cs, r)
      | none => none

/-- Integer part of a JSON number: `0` or `[1-9][0-9]*`. -/
def parseIntPart : List Char → Option (List Char × List Char)
  | [] => none
  | c :: r =>
    if c = '0' then some (['0'], r)
    else if c.isDigit then
      some (c :: r.takeWhile Char.isDigit, r.dropWhile Char.isDigit)
    else none

/-- Does the list start with a decimal digit? -/
def digitsHead : List Char → Bool
  | d :: _ => d.isDigit
  | [] => false

/-- Optional fraction part `(\.\d+)?` of a JSON number; consumes nothing when
the group does not match (regex semantics of Python's `NUMBER_RE`). -/
def parseFrac : List Char → List Char × List Char
  | [] => ([], [])
  | c :: r =>
    if c = '.' && digitsHead r then
      (c :: r.takeWhile Char.isDigit, r.dropWhile Char.isDigit)
    else ([], c :: r)

/-- Optional exponent part `([eE][-+]?\d+)?` of a JSON number; consumes
nothing when the group does not match. -/
def parseExp : List Char → List Char × List Char
  | [] => ([], [])
  | [c] => ([], [c])
  | c :: s :: r2 =>
    if c = 'e' || c = 'E' then
      if (s = '+' || s = '-') && digitsHead r2 then
        (c :: s :: r2.takeWhile Char.isDigit, r2.dropWhile Char.isDigit)
      else if s.isDigit then
        (c :: (s :: r2).takeWhile Char.isDigit, (s :: r2).dropWhile Char.isDigit)
      else ([], c :: s :: r2)
    else ([], c :: s :: r2)

/-- A JSON number literal `-?(0|[1-9]\d*)(\.\d+)?([eE][-+]?\d+)?`, returned
as its raw characters together with the rest of the input. -/
def parseNum (l : List Char) : Option (List Char × List Char) :=
  match l with
  | [] => none
  | c :: l1 =>
    if c = '-' then
      match parseIntPart l1 with
      | some (ip, r1) =>
        let fr := parseFrac r1
        let ex := parseExp fr.2
        some (c :: (ip ++ (fr.1 ++ ex.1)), ex.2)
      | none => none
    else
      match parseIntPart (c :: l1) with
      | some (ip, r1) =>
        let fr := parseFrac r1
        let ex := parseExp fr.2
        some (ip ++ (fr.1 ++ ex.1), ex.2)
      | none => none

/-- Recursive-descent JSON parser, fuel-indexed so that it is structurally
recursive.  Mirrors Python's `json.loads` grammar: values, objects with
string keys, arrays, strings, numbers, `true` / `false` / `null`, and the
constants `NaN`, `Infinity`, `-Infinity` that the default decoder accepts.
A value parse does not consume trailing whitespace. -/
def parseF : Nat → PMode → List Char → Option (Json × List Char)
  | 0, _, _ => none
  | Nat.succ fuel, PMode.value, l =>
    match l with
    | [] => none
    | c :: rest =>
      if c = '{' then
        match skipWs rest with
        | c2 :: r2 =>
          if c2 = '}' then some (Json.obj [], r2)
          else parseF fuel (PMode.members []) (c2 :: r2)
        | [] => none
      else if c = '[' then
        match skipWs rest with
        | c2 :: r2 =>
          if c2 = ']' then some (Json.arr [], r2)
          else parseF fuel (PMode.elems []) (c2 :: r2)
        | [] => none
      else if c = '"' then
        match parseStrBody (rest.length + 1) rest with
        | some (cs, r) => some (Json.str cs, r)
        | none => none
      else if l.take 4 = ['t', 'r', 'u', 'e'] then
        some (Json.bool true, l.drop 4)
      else if l.take 5 = ['f', 'a', 'l', 's', 'e'] then
        some (Json.bool false, l.drop 5)
      else if l.take 4 = ['n', 'u', 'l', 'l'] then
        some (Json.null, l.drop 4)
      else if l.take 3 = ['N', 'a', 'N'] then
        some (Json.num ['N', 'a', 'N'], l.drop 3)
      else if l.take 8 = ['I', 'n', 'f', 'i', 'n', 'i', 't', 'y'] then
        some (Json.num ['I', 'n', 'f', 'i', 'n', 'i', 't', 'y'], l.drop 8)
      else if l.take 9 = ['-', 'I', 'n', 'f', 'i', 'n', 'i', 't', 'y'] then
        some (Json.num ['-', 'I', 'n', 'f', 'i', 'n', 'i', 't', 'y'], l.drop 9)
      else
        match parseNum l with
        | some (ds, r) => some (Json.num ds, r)
        | none => none
  | Nat.succ fuel, PMode.members acc, l =>
    match l with
    | [] => none
    | c :: rest =>
      if c = '"' then
        match parseStrBody (rest.length + 1) rest with
        | some (key, r1) =>
          match skipWs r1 with
          | c2 :: r2 =>
            if c2 = ':' then
              match parseF fuel PMode.value (skipWs r2) with
              | some (v, r3) =>
                match skipWs r3 with
                | c3 :: r4 =>
                  if c3 = ',' then
                    parseF fuel (PMode.members (acc ++ [(key, v)])) (skipWs r4)
                  else if c3 = '}' then
                    some (Json.obj (acc ++ [(key, v)]), r4)
                  else none
                | [] => none
              | none => none
            else none
          | [] => none
        | none => none
      else none
  | Nat.succ fuel, PMode.elems acc, l =>
    match parseF fuel PMode.value l with
    | some (v, r1) =>
      match skipWs r1 with
      | c2 :: r2 =>
        if c2 = ',' then parseF fuel (PMode.elems (acc ++ [v])) (skipWs r2)
        else if c2 = ']' then some (Json.arr (acc ++ [v]), r2)
        else none
      | [] => none
    | none => none

/-- `json.loads`: skip leading whitespace, parse one value, skip trailing
whitespace, and require the whole string to be consumed.  The fuel
`3 * length + 3` strictly dominates the recursion depth of the grammar. -/
def parseJson (s : String) : Option Json :=
  match parseF (3 * s.length + 3) PMode.value (skipWs s.data) with
  | some (v, r) => if skipWs r = [] then some v else none
  | none => none

/-- `is_valid_json`: true iff a strict JSON parse of the full string
succeeds; parse failures of any kind yield `false` (the `try/except` of the
source collapses to totality of this function). -/
def is_valid_json (json_str : String) : Bool :=
  (parseJson json_str).isSome

/-- The balanced-brace span scanner behind
`originalTextFor(nestedExpr("\x7b", "\x7d")).searchString`: a linear scan
keeping a brace depth, an inside-quoted-string flag and an escape flag.
Braces inside quoted strings are inert; a span is emitted when depth
returns from 1 to 0; a span still open at the end of input is discarded.
`acc` holds the characters of the current span in reverse. -/
def scanAux : List Char → Nat → Bool → Bool → List Char → List (List Char)
  | [], _, _, _, _ => []
  | c :: rest, depth, inStr, esc, acc =>
    if inStr then
      if esc then scanAux rest depth true false (c :: acc)
      else if c = '"' then scanAux rest depth false false (c :: acc)
      else if c = '\\' then scanAux rest depth true true (c :: acc)
      else scanAux rest depth true false (c :: acc)
    else if c = '{' then
      if depth = 0 then scanAux rest 1 false false [c]
      else scanAux rest (depth + 1) false false (c :: acc)
    else if c = '}' then
      if depth = 1 then (c :: acc).reverse :: scanAux rest 0 false false []
      else scanAux rest (depth - 1) false false (c :: acc)
    else if c = '"' then
      scanAux rest depth true false (c :: acc)
    else
      scanAux rest depth false false (c :: acc)

/-- `get_json_candidates`: all top-level brace-delimited substrings. -/
def get_json_candidates (s : String) : List String :=
  (scanAux s.data 0 false false []).map String.mk

/-- One pass of Python's `str.replace(pat, repl)` where the pattern is the
two characters `'\\', c` and the replacement is the single character `c`:
leftmost occurrences, non-overlapping, left to right. -/
def replacePair (c : Char) : List Char → List Char
  | [] => []
  | [x] => [x]
  | x :: y :: rest =>
    if x = '\\' && y = c then c :: replacePair c rest
    else x :: replacePair c (y :: rest)

/-- The candidate normalization step of `extract_top_level_json`:
`candidate.replace("\\\x7b", "\x7b").replace("\\\x7d", "\x7d").replace("\\_", "_")`. -/
def normalize (s : String) : String :=
  String.mk (replacePair '_' (replacePair '}' (replacePair '{' s.data)))

/-- The rewriting loop of `re.sub(r":\s*([a-zA-Z_][a-zA-Z_0-9\-]*)", ": P", s)`:
at each colon, if optional whitespace is followed by a bareword, the whole
match is replaced by `: P` and scanning resumes after the bareword; the
character classes are disjoint so the regex is equivalent to this maximal
munch.  Fuel-indexed for structural recursion; the top-level call always
supplies enough fuel. -/
def repairGo (placeholder : List Char) : Nat → List Char → List Char
  | 0, l => l
  | Nat.succ _, [] => []
  | Nat.succ fuel, c :: rest =>
    if c = ':' then
      match rest.dropWhile isSubWs with
      | d :: tail =>
        if barewordStart d then
          ':' :: ' ' :: (placeholder ++ repairGo placeholder fuel (tail.dropWhile barewordCont))
        else c :: repairGo placeholder fuel rest
      | [] => c :: repairGo placeholder fuel rest
    else c :: repairGo placeholder fuel rest

/-- `replace_undefined`: replace unquoted bareword values after a colon with
the quoted placeholder (default `"<undefined>"`).  The source's trailing
`try/except` around returning the string is dead code and is omitted. -/
def replace_undefined (s : String) (placeholder : String := "\"<undefined>\"") : String :=
  String.mk (repairGo placeholder.data (s.data.length + 1) s.data)

/-- `extract_top_level_json`: candidates from the scanner, normalized, value
repaired, and filtered by `is_valid_json`, in document order. -/
def extract_top_level_json (s : String) : List String :=
  let json_candidates := get_json_candidates s
  let normalized_candidates := json_candidates.map normalize
  let candidates := normalized_candidates.map (fun c => replace_undefined c)
  candidates.filter is_valid_json

/-- Lookup of a key in a parsed object: the last binding wins, as in the
Python dict produced by `json.loads`. -/
def fieldLookup (m : List (List Char × Json)) (key : List Char) : Option Json :=
  m.foldl (fun acc p => if p.1 = key then some p.2 else acc) none

/-- The candidate loop of `top_level_json_field`: parse each extracted
candidate in order and return the value of the first one whose top level
binds the field; candidates are already validated, so the parse and object
cases are total on the inputs that reach this loop. -/
def fieldFromJsons : List String → String → Json
  | [], _ => Json.str []
  | j :: rest, f =>
    match parseJson j with
    | some (Json.obj m) =>
      match fieldLookup m f.data with
      | some v => v
      | none => fieldFromJsons rest f
    | _ => fieldFromJsons rest f

/-- `top_level_json_field`: the value of field `f` in the first valid
top-level JSON object found in `s`, or the empty-string sentinel. -/
def top_level_json_field (s f : String) : Json :=
  match extract_top_level_json s with
  | [] => Json.str []
  | jsons => fieldFromJsons jsons f

/-- Does the list start with the single character `a`? -/
def startsWith1 (a : Char) : List Char → Bool
  | x :: _ => x = a
  | [] => false

/-- Does the list start with the two characters `a, b`? -/
def startsWith2 (a b : Char) : List Char → Bool
  | x :: rest => x = a && startsWith1 b rest
  | [] => false

/-- Does the two-character sequence `a, b` occur (contiguously) in the list? -/
def hasPair (a b : Char) : List Char → Bool
  | [] => false
  | x :: rest => (x = a && startsWith1 b rest) || hasPair a b rest

/-- Does the three-character sequence `a, b, c` occur (contiguously)? -/
def hasTriple (a b c : Char) : List Char → Bool
  | [] => false
  | x :: rest => (x = a && startsWith2 b c rest) || hasTriple a b c rest

/-- Does the repair regex `:\s*([a-zA-Z_][a-zA-Z_0-9\-]*)` match anywhere in
the list?  (A colon followed by optional whitespace and a bareword.) -/
def hasRepairMatch : List Char → Bool
  | [] => false
  | c :: rest =>
    (c = ':' &&
      (match rest.dropWhile isSubWs with
       | d :: _ => barewordStart d
       | [] => false)) || hasRepairMatch rest

/-- A character that the span scanner treats as inert outside strings:
anything other than a brace or a double quote. -/
def plainChar (c : Char) : Bool :=
  !(c = '{' || c = '}' || c = '"')

/-- A character that the span scanner treats as inert inside a string when
no escape is pending: anything other than a quote or a backslash. -/
def strPlainChar (c : Char) : Bool :=
  !(c = '"' || c = '\\')

/-- The state transition of the span scanner on one character:
(depth, inString, escapePending).  Identical branch structure to
`scanAux`, without the candidate accumulator. -/
def stepState : Nat × Bool × Bool → Char → Nat × Bool × Bool
  | (depth, inStr, esc), c =>
    if inStr then
      if esc then (depth, true, false)
      else if c = '"' then (depth, false, false)
      else if c = '\\' then (depth, true, true)
      else (depth, true, false)
    else if c = '{' then
      if depth = 0 then (1, false, false)
      else (depth + 1, false, false)
    else if c = '}' then
      if depth = 1 then (0, false, false)
      else (depth - 1, false, false)
    else if c = '"' then (depth, true, false)
    else (depth, false, false)

/-- Run the span scanner over a list of characters, returning the final
depth, in-string flag, escape flag and span accumulator (but not the
emitted spans); branch for branch the same automaton as `scanAux`. -/
def runFull : List Char → Nat → Bool → Bool → List Char → Nat × Bool × Bool × List Char
  | [], d, i, e, acc => (d, i, e, acc)
  | c :: rest, depth, inStr, esc, acc =>
    if inStr then
      if esc then runFull rest depth true false (c :: acc)
      else if c = '"' then runFull rest depth false false (c :: acc)
      else if c = '\\' then runFull rest depth true true (c :: acc)
      else runFull rest depth true false (c :: acc)
    else if c = '{' then
      if depth = 0 then runFull rest 1 false false [c]
      else runFull rest (depth + 1) false false (c :: acc)
    else if c = '}' then
      if depth = 1 then runFull rest 0 false false []
      else runFull rest (depth - 1) false false (c :: acc)
    else if c = '"' then
      runFull rest depth true false (c :: acc)
    else
      runFull rest depth false false (c :: acc)

/-- True iff, scanning `l` from state `st`, the brace depth is nonzero after
every character: the text opens a span (or stays inside one) that never
closes.  This is the scanner-level reading of "ends with depth > 0 from the
last top-level point on". -/
def staysOpen (st : Nat × Bool × Bool) : List Char → Bool
  | [] => true
  | c :: rest =>
    let st' := stepState st c
    st'.1 != 0 && staysOpen st' rest

/-- Projection of a field from an ordered list of candidate JSON strings,
written from the specification's words (Contract C): parse each valid
candidate as an object and take the value bound to the field in the first
candidate whose top level contains that key; absent keys give `none` and
the overall default is the empty-string sentinel. -/
def specFieldProjection (jsons : List String) (f : String) : Json :=
  (jsons.findSome? (fun j =>
    match parseJson j with
    | some (Json.obj m) => fieldLookup m f.data
    | _ => none)).getD (Json.str [])

/-- A chunk of characters that the span scanner crosses, from any depth
`d ≥ 1` outside a string, returning to the same state and accumulating
exactly its characters (the body of a span). -/
def Neutral (w : List Char) : Prop :=
  ∀ (rest : List Char) (d : Nat) (acc : List Char), 1 ≤ d →
    scanAux (w ++ rest) d false false acc =
      scanAux rest d false false (w.reverse ++ acc)

/-- A chunk that the span scanner crosses while inside a quoted string with
no pending escape at entry, leaving it inside the string with no pending
escape (the body of a string literal). -/
def StrNeutral (w : List Char) : Prop :=
  ∀ (rest : List Char) (d : Nat) (acc : List Char),
    scanAux (w ++ rest) d true false acc =
      scanAux rest d true false (w.reverse ++ acc)

/-! ### Concrete pipeline behavior -/

/-- C3: the bareword pattern also matches the JSON literals, so the value
repairer replaces legitimate unquoted `true` / `false` / `null` values after
a colon with the quoted placeholder; in particular the candidate
`\x7b"a": true\x7d` is rewritten to `\x7b"a": "<undefined>"\x7d`. -/
theorem replace_undefined_hits_json_literals :
    replace_undefined "\x7b\"a\": true\x7d" = "\x7b\"a\": \"<undefined>\"\x7d" ∧
    replace_undefined "\x7b\"a\": false\x7d" = "\x7b\"a\": \"<undefined>\"\x7d" ∧
    replace_undefined "\x7b\"a\": null\x7d" = "\x7b\"a\": \"<undefined>\"\x7d" := by
  refine ⟨rfl, rfl, rfl⟩

/-- C4: `is_valid_json` is total over strings and returns `true` exactly when
the strict JSON parse of the full string succeeds; syntax errors, empty
input and non-JSON text all map to `false`. -/
theorem is_valid_json_iff_parse :
    (∀ s : String, is_valid_json s = true ↔ ∃ v, parseJson s = some v) ∧
    is_valid_json "" = false ∧
    is_valid_json "\x7b" = false ∧
    is_valid_json "not json" = false ∧
    is_valid_json "\x7b\"a\": 1\x7d" = true := by
  refine ⟨fun s => ?_, rfl, rfl, rfl, rfl⟩
  simp [is_valid_json, Option.isSome_iff_exists]

/-- C5: braces inside quoted strings are opaque to the span scanner: on
`J = \x7b"text": "a \x7b b \x7d c"\x7d` the extractor returns exactly one
candidate, the whole of `J`. -/
theorem extract_quote_opacity :
    extract_top_level_json "\x7b\"text\": \"a \x7b b \x7d c\"\x7d" =
      ["\x7b\"text\": \"a \x7b b \x7d c\"\x7d"] := by
  rfl

/-- C7: bareword value repair end to end: `\x7b"rent": DO-NOT-KNOW\x7d`
yields exactly one candidate `\x7b"rent": "<undefined>"\x7d`, and the field
projection of `rent` is the string `<undefined>`. -/
theorem extract_bareword_repair :
    extract_top_level_json "\x7b\"rent\": DO-NOT-KNOW\x7d" =
      ["\x7b\"rent\": \"<undefined>\"\x7d"] ∧
    top_level_json_field "\x7b\"rent\": DO-NOT-KNOW\x7d" "rent" =
      Json.str "<undefined>".data := by
  refine ⟨rfl, rfl⟩

/-- C8: multiple adjacent top-level objects each yield their own candidate in
order of appearance: `\x7b"a":1\x7d noise \x7b"b":2\x7d` gives exactly
`\x7b"a":1\x7d` then `\x7b"b":2\x7d`. -/
theorem extract_multiple_top_level :
    extract_top_level_json "\x7b\"a\":1\x7d noise \x7b\"b\":2\x7d" =
      ["\x7b\"a\":1\x7d", "\x7b\"b\":2\x7d"] := by
  rfl

/-- C10: the value repairer is blind to quoted-string context: on the valid
JSON object `\x7b"note": "a: b"\x7d` it rewrites the colon-bareword
occurrence inside the string literal, corrupting the candidate, so the
extractor returns the empty list for this valid input. -/
theorem replace_undefined_ignores_quotes :
    is_valid_json "\x7b\"note\": \"a: b\"\x7d" = true ∧
    replace_undefined "\x7b\"note\": \"a: b\"\x7d" =
      "\x7b\"note\": \"a: \"<undefined>\"\"\x7d" ∧
    extract_top_level_json "\x7b\"note\": \"a: b\"\x7d" = [] := by
  refine ⟨rfl, rfl, rfl⟩

/-! ### Normalization: occurrence bookkeeping for `replacePair` -/

theorem hasPair_tail {a b x : Char} {t : List Char}
    (h : hasPair a b (x :: t) = false) : hasPair a b t = false := by
  simp only [hasPair, Bool.or_eq_false_iff] at h
  exact h.2

theorem hasTriple_tail {a b c x : Char} {t : List Char}
    (h : hasTriple a b c (x :: t) = false) : hasTriple a b c t = false := by
  simp only [hasTriple, Bool.or_eq_false_iff] at h
  exact h.2

/-- The head of `replacePair c` on a nonempty list is either the original
head or, in a replaced position, the replacement character `c`. -/
theorem replacePair_head (c x : Char) (t : List Char) :
    ∃ z t', replacePair c (x :: t) = z :: t' ∧
      (z = x ∨ (z = c ∧ x = '\\' ∧ startsWith1 c t = true)) := by
  cases t with
  | nil => exact ⟨x, [], rfl, Or.inl rfl⟩
  | cons y rest =>
    by_cases hx : x = '\\' ∧ y = c
    · refine ⟨c, replacePair c rest, ?_, Or.inr ⟨rfl, hx.1, ?_⟩⟩
      · simp [replacePair, hx.1, hx.2]
      · simp [startsWith1, hx.2]
    · refine ⟨x, replacePair c (y :: rest), ?_, Or.inl rfl⟩
      rw [replacePair]
      rw [if_neg]
      simp only [Bool.and_eq_true, decide_eq_true_eq]
      exact hx

/-- If the pattern `\c` never occurs, `replacePair c` is the identity. -/
theorem replacePair_of_no_pair (c : Char) :
    ∀ l, hasPair '\\' c l = false → replacePair c l = l := by
  intro l
  induction l using replacePair.induct c with
  | case1 => intro _; rfl
  | case2 x => intro _; rfl
  | case3 x y rest hxy ih =>
    intro h
    exfalso
    simp only [Bool.and_eq_true, decide_eq_true_eq] at hxy
    simp [hasPair, startsWith1, hxy.1, hxy.2] at h
  | case4 x y rest hxy ih =>
    intro h
    rw [replacePair, if_neg hxy, ih (hasPair_tail h)]

/-- On input free of `\\c` triples, the output of `replacePair c` is free of
`\c` pairs (the replacement never recreates the pattern that was removed). -/
theorem replacePair_no_pair_out (c : Char) (hc : c ≠ '\\') :
    ∀ l, hasTriple '\\' '\\' c l = false → hasPair '\\' c (replacePair c l) = false := by
  intro l
  induction l using replacePair.induct c with
  | case1 => intro _; rfl
  | case2 x =>
    intro _
    simp [replacePair, hasPair, startsWith1]
  | case3 x y rest hxy ih =>
    intro h
    rw [replacePair, if_pos hxy]
    simp only [hasPair, Bool.or_eq_false_iff]
    constructor
    · simp [hc]
    · exact ih (hasTriple_tail (hasTriple_tail h))
  | case4 x y rest hxy ih =>
    intro h
    rw [replacePair, if_neg hxy]
    simp only [hasPair, Bool.or_eq_false_iff]
    refine ⟨?_, ih (hasTriple_tail h)⟩
    by_cases hx : x = '\\'
    · obtain ⟨z, t', heq, hz⟩ := replacePair_head c y rest
      rw [heq]
      simp only [startsWith1, Bool.and_eq_false_iff]
      rcases hz with hz | ⟨hz, hy, hrest⟩
      · subst hz
        right
        simp only [decide_eq_false_iff_not]
        intro hyc
        exact hxy (by simp [hx, hyc])
      · exfalso
        subst hy hx
        simp [hasTriple, startsWith2, hrest] at h
    · simp [hx]

/-- `replacePair c'` (for a different stage `c' ≠ c`) never creates a new
`\c` pair. -/
theorem replacePair_keeps_no_pair (c c' : Char) (hne : c' ≠ c) (hc' : c' ≠ '\\') :
    ∀ l, hasPair '\\' c l = false → hasPair '\\' c (replacePair c' l) = false := by
  intro l
  induction l using replacePair.induct c' with
  | case1 => intro _; rfl
  | case2 x =>
    intro h
    simpa [replacePair] using h
  | case3 x y rest hxy ih =>
    intro h
    rw [replacePair, if_pos hxy]
    simp only [hasPair, Bool.or_eq_false_iff]
    refine ⟨by simp [hc'], ih (hasPair_tail (hasPair_tail h))⟩
  | case4 x y rest hxy ih =>
    intro h
    rw [replacePair, if_neg hxy]
    simp only [hasPair, Bool.or_eq_false_iff]
    refine ⟨?_, ih (hasPair_tail h)⟩
    by_cases hx : x = '\\'
    · obtain ⟨z, t', heq, hz⟩ := replacePair_head c' y rest
      rw [heq]
      simp only [startsWith1, Bool.and_eq_false_iff]
      rcases hz with hz | ⟨hz, hy, hrest⟩
      · subst hz
        right
        simp only [decide_eq_false_iff_not]
        intro hyc
        subst hyc hx
        simp [hasPair, startsWith1] at h
      · subst hz
        right
        simp [hne]
    · simp [hx]

/-- The head of `replacePair c'` on `y :: rest` differs from `a` whenever
both `y` and `c'` differ from `a`. -/
theorem startsWith1_replacePair (c' a y : Char) (rest : List Char)
    (h1 : ¬ y = a) (h2 : ¬ c' = a) :
    startsWith1 a (replacePair c' (y :: rest)) = false := by
  obtain ⟨z, t', heq, hz⟩ := replacePair_head c' y rest
  rcases hz with hz | ⟨hz, _, _⟩
  · rw [heq]
    simp [startsWith1, hz, h1]
  · rw [heq]
    simp [startsWith1, hz, h2]

theorem startsWith2_false_of_head (a b : Char) (l : List Char)
    (h : startsWith1 a l = false) : startsWith2 a b l = false := by
  cases l with
  | nil => rfl
  | cons x rest =>
    simp only [startsWith1] at h
    simp [startsWith2, h]

/-- `replacePair c'` (for a different stage `c' ≠ c`) never creates a new
`\\c` triple. -/
theorem replacePair_keeps_no_triple (c c' : Char) (hne : c' ≠ c) (hc' : c' ≠ '\\') :
    ∀ l, hasTriple '\\' '\\' c l = false →
      hasTriple '\\' '\\' c (replacePair c' l) = false := by
  intro l
  induction l using replacePair.induct c' with
  | case1 => intro _; rfl
  | case2 x =>
    intro h
    simpa [replacePair] using h
  | case3 x y rest hxy ih =>
    intro h
    rw [replacePair, if_pos hxy]
    simp only [hasTriple, Bool.or_eq_false_iff]
    refine ⟨by simp [hc'], ih (hasTriple_tail (hasTriple_tail h))⟩
  | case4 x y rest hxy ih =>
    intro h
    rw [replacePair, if_neg hxy]
    simp only [hasTriple, Bool.or_eq_false_iff]
    refine ⟨?_, ih (hasTriple_tail h)⟩
    by_cases hx : x = '\\'
    · by_cases hy : y = '\\'
      · cases rest with
        | nil =>
          rw [hy]
          simp [replacePair, startsWith2, startsWith1]
        | cons r0 rest2 =>
          by_cases hr0 : r0 = c'
          · rw [hy, hr0]
            rw [show replacePair c' ('\\' :: c' :: rest2) = c' :: replacePair c' rest2 from
              by rw [replacePair]; simp]
            simp [startsWith2, hc']
          · rw [hy]
            rw [show replacePair c' ('\\' :: r0 :: rest2) = '\\' :: replacePair c' (r0 :: rest2) from
              by rw [replacePair]; simp [hr0]]
            have hr0c : ¬ r0 = c := by
              intro hr
              rw [hx, hy, hr] at h
              simp [hasTriple, startsWith2, startsWith1] at h
            have hhead : startsWith1 c (replacePair c' (r0 :: rest2)) = false :=
              startsWith1_replacePair c' c r0 rest2 hr0c (fun hcc => hne hcc)
            simp [startsWith2, hhead]
      · have hhead : startsWith1 '\\' (replacePair c' (y :: rest)) = false :=
          startsWith1_replacePair c' '\\' y rest hy hc'
        simp [startsWith2_false_of_head _ _ _ hhead]
    · simp [hx]

/-- C2 counterexample: normalization is not idempotent on all strings.  On
the three characters `\\\x7b`, the first pass rewrites the overlapping tail
`\\\x7b` to `\x7b`, leaving `\\\x7b` again, which a second pass rewrites
further. -/
theorem normalize_not_idempotent :
    normalize (normalize "\\\\\x7b") ≠ normalize "\\\\\x7b" := by
  decide

/-- C2 (amended): the normalization rewrite is idempotent on every string in
which no replaced occurrence is immediately preceded by a further backslash,
i.e. every string containing none of the three-character sequences
`\\\x7b`, `\\\x7d`, `\\_`. -/
theorem normalize_idempotent (s : String)
    (h1 : hasTriple '\\' '\\' '{' s.data = false)
    (h2 : hasTriple '\\' '\\' '}' s.data = false)
    (h3 : hasTriple '\\' '\\' '_' s.data = false) :
    normalize (normalize s) = normalize s := by
  unfold normalize
  refine congrArg String.mk ?_
  show replacePair '_' (replacePair '}' (replacePair '{'
      (replacePair '_' (replacePair '}' (replacePair '{' s.data))))) =
    replacePair '_' (replacePair '}' (replacePair '{' s.data))
  set t1 := replacePair '{' s.data with ht1
  set t2 := replacePair '}' t1 with ht2
  set t3 := replacePair '_' t2 with ht3
  have a1 : hasPair '\\' '{' t1 = false :=
    replacePair_no_pair_out '{' (by decide) s.data h1
  have a2 : hasPair '\\' '{' t2 = false :=
    replacePair_keeps_no_pair '{' '}' (by decide) (by decide) t1 a1
  have a3 : hasPair '\\' '{' t3 = false :=
    replacePair_keeps_no_pair '{' '_' (by decide) (by decide) t2 a2
  have b0 : hasTriple '\\' '\\' '}' t1 = false :=
    replacePair_keeps_no_triple '}' '{' (by decide) (by decide) s.data h2
  have b1 : hasPair '\\' '}' t2 = false :=
    replacePair_no_pair_out '}' (by decide) t1 b0
  have b2 : hasPair '\\' '}' t3 = false :=
    replacePair_keeps_no_pair '}' '_' (by decide) (by decide) t2 b1
  have c0 : hasTriple '\\' '\\' '_' t1 = false :=
    replacePair_keeps_no_triple '_' '{' (by decide) (by decide) s.data h3
  have c1 : hasTriple '\\' '\\' '_' t2 = false :=
    replacePair_keeps_no_triple '_' '}' (by decide) (by decide) t1 c0
  have c2 : hasPair '\\' '_' t3 = false :=
    replacePair_no_pair_out '_' (by decide) t2 c1
  rw [replacePair_of_no_pair '{' t3 a3, replacePair_of_no_pair '}' t3 b2,
    replacePair_of_no_pair '_' t3 c2]

/-- C2 witness: a string that does contain the escape artifact `\\\x7b` (so
normalization is not a no-op on it) but none of the problematic triples, on
which idempotence holds. -/
theorem normalize_idempotent_witness :
    hasTriple '\\' '\\' '{' (String.data "a\\\x7bb") = false ∧
      normalize (normalize "a\\\x7bb") = normalize "a\\\x7bb" :=
  ⟨by decide, normalize_idempotent "a\\\x7bb" (by decide) (by decide) (by decide)⟩

/-! ### The scanner state automaton and span splitting -/

theorem staysOpen_cons {st : Nat × Bool × Bool} {c : Char} {rest : List Char}
    (h : staysOpen st (c :: rest) = true) :
    (stepState st c).1 ≠ 0 ∧ staysOpen (stepState st c) rest = true := by
  simp only [staysOpen, Bool.and_eq_true, bne_iff_ne, ne_eq] at h
  exact h

/-- Splitting the scanner run at any point: the spans of `l1 ++ l2` are the
spans closed inside `l1` followed by the spans of `l2` scanned from the
carried-over state. -/
theorem scanAux_append (l1 : List Char) :
    ∀ (l2 : List Char) (d : Nat) (i e : Bool) (acc : List Char),
      scanAux (l1 ++ l2) d i e acc =
        scanAux l1 d i e acc ++
          scanAux l2 (runFull l1 d i e acc).1 (runFull l1 d i e acc).2.1
            (runFull l1 d i e acc).2.2.1 (runFull l1 d i e acc).2.2.2 := by
  induction l1 with
  | nil => intro l2 d i e acc; simp [scanAux, runFull]
  | cons c l1' ih =>
    intro l2 d i e acc
    simp only [List.cons_append, scanAux, runFull]
    split_ifs <;> simp [ih]

/-- A segment during which the brace depth never returns to zero emits no
span, whatever the accumulator. -/
theorem scanAux_staysOpen_nil :
    ∀ (o : List Char) (d : Nat) (i e : Bool) (acc : List Char),
      staysOpen (d, i, e) o = true → scanAux o d i e acc = [] := by
  intro o
  induction o with
  | nil => intro d i e acc _; rfl
  | cons c rest ih =>
    intro d i e acc h
    obtain ⟨h1, h2⟩ := staysOpen_cons h
    simp only [scanAux, stepState] at *
    split_ifs at h1 h2 ⊢ <;> first
      | exact ih _ _ _ _ h2
      | exact absurd rfl h1

/-- C9: an unbalanced opening never produces output.  Whenever a trailing
segment `o` keeps the brace depth nonzero after every one of its characters
(a partially-opened span, scanned from the state reached after `t`), the
candidates of `t ++ o` are exactly those of `t`: the open span is
discarded.  In particular `extract_top_level_json` of `\x7b"a": 1` is empty,
without raising. -/
theorem unbalanced_open_discarded :
    (∀ t o : String,
      staysOpen ((runFull t.data 0 false false []).1,
        (runFull t.data 0 false false []).2.1,
        (runFull t.data 0 false false []).2.2.1) o.data = true →
      get_json_candidates (t ++ o) = get_json_candidates t) ∧
    extract_top_level_json "\x7b\"a\": 1" = [] := by
  refine ⟨fun t o h => ?_, rfl⟩
  unfold get_json_candidates
  rw [String.data_append, scanAux_append, scanAux_staysOpen_nil _ _ _ _ _ h,
    List.append_nil]

/-- C9 witness: the prose `say ` followed by the never-closed opening
`\x7b"a": 1` satisfies the stays-open hypothesis, and the open span
contributes no candidate. -/
theorem unbalanced_open_discarded_witness :
    staysOpen ((runFull (String.data "say ") 0 false false []).1,
      (runFull (String.data "say ") 0 false false []).2.1,
      (runFull (String.data "say ") 0 false false []).2.2.1)
      (String.data "\x7b\"a\": 1") = true ∧
    get_json_candidates ("say " ++ "\x7b\"a\": 1") = get_json_candidates "say " :=
  ⟨by decide, unbalanced_open_discarded.1 "say " "\x7b\"a\": 1" (by decide)⟩

/-! ### Field projection -/

theorem fieldFromJsons_eq_spec (f : String) :
    ∀ jsons : List String, fieldFromJsons jsons f = specFieldProjection jsons f := by
  intro jsons
  induction jsons with
  | nil => rfl
  | cons j rest ih =>
    simp only [fieldFromJsons, specFieldProjection, List.findSome?_cons]
    cases hp : parseJson j with
    | none =>
      simpa [specFieldProjection] using ih
    | some v =>
      cases v with
      | obj m =>
        cases hfl : fieldLookup m f.data with
        | none => simpa [hfl, specFieldProjection] using ih
        | some w => simp [hfl]
      | null => simpa [specFieldProjection] using ih
      | bool b => simpa [specFieldProjection] using ih
      | num lit => simpa [specFieldProjection] using ih
      | str cs => simpa [specFieldProjection] using ih
      | arr es => simpa [specFieldProjection] using ih

/-- C6: `top_level_json_field` returns the value bound to the field in the
first valid candidate (in document order) whose top level contains the key,
and the empty-string sentinel when no valid candidate contains it; nested
occurrences are not considered since lookup inspects only the top-level
members.  In particular on `\x7b"a":1\x7d \x7b"a":2\x7d` the field `a`
projects to `1`. -/
theorem top_level_json_field_first_match :
    (∀ s f : String,
      top_level_json_field s f = specFieldProjection (extract_top_level_json s) f) ∧
    top_level_json_field "\x7b\"a\":1\x7d \x7b\"a\":2\x7d" "a" = Json.num ['1'] ∧
    top_level_json_field "no json here at all" "x" = Json.str [] := by
  refine ⟨fun s f => ?_, rfl, rfl⟩
  cases hj : extract_top_level_json s with
  | nil => simp [top_level_json_field, hj, specFieldProjection]
  | cons j rest =>
    simp only [top_level_json_field, hj]
    exact fieldFromJsons_eq_spec f (j :: rest)

/-! ### Single steps of the span scanner -/

theorem scanAux_step_plain {c : Char} (h1 : ¬c = '{') (h2 : ¬c = '}')
    (h3 : ¬c = '"') (rest : List Char) (d : Nat) (acc : List Char) :
    scanAux (c :: rest) d false false acc =
      scanAux rest d false false (c :: acc) := by
  rw [scanAux, if_neg (by simp), if_neg h1, if_neg h2, if_neg h3]

theorem scanAux_step_quote_open (rest : List Char) (d : Nat) (acc : List Char) :
    scanAux ('"' :: rest) d false false acc =
      scanAux rest d true false ('"' :: acc) := by
  rw [scanAux, if_neg (by simp), if_neg (by decide), if_neg (by decide), if_pos rfl]

theorem scanAux_step_open_top (rest : List Char) (acc : List Char) :
    scanAux ('{' :: rest) 0 false false acc =
      scanAux rest 1 false false ['{'] := by
  rw [scanAux, if_neg (by simp), if_pos rfl, if_pos rfl]

theorem scanAux_step_open_deep {d : Nat} (hd : ¬d = 0) (rest acc : List Char) :
    scanAux ('{' :: rest) d false false acc =
      scanAux rest (d + 1) false false ('{' :: acc) := by
  rw [scanAux, if_neg (by simp), if_pos rfl, if_neg hd]

theorem scanAux_step_close_emit (rest acc : List Char) :
    scanAux ('}' :: rest) 1 false false acc =
      ('}' :: acc).reverse :: scanAux rest 0 false false [] := by
  rw [scanAux, if_neg (by simp), if_neg (by decide), if_pos rfl, if_pos rfl]

theorem scanAux_step_close_deep {d : Nat} (hd : ¬d = 1) (rest acc : List Char) :
    scanAux ('}' :: rest) d false false acc =
      scanAux rest (d - 1) false false ('}' :: acc) := by
  rw [scanAux, if_neg (by simp), if_neg (by decide), if_pos rfl, if_neg hd]

theorem scanAux_instr_esc (c : Char) (rest : List Char) (d : Nat) (acc : List Char) :
    scanAux (c :: rest) d true true acc =
      scanAux rest d true false (c :: acc) := by
  rw [scanAux, if_pos rfl, if_pos rfl]

theorem scanAux_instr_quote (rest : List Char) (d : Nat) (acc : List Char) :
    scanAux ('"' :: rest) d true false acc =
      scanAux rest d false false ('"' :: acc) := by
  rw [scanAux, if_pos rfl, if_neg (by simp), if_pos rfl]

theorem scanAux_instr_backslash (rest : List Char) (d : Nat) (acc : List Char) :
    scanAux ('\\' :: rest) d true false acc =
      scanAux rest d true true ('\\' :: acc) := by
  rw [scanAux, if_pos rfl, if_neg (by simp), if_neg (by decide), if_pos rfl]

theorem scanAux_instr_plain {c : Char} (h1 : ¬c = '"') (h2 : ¬c = '\\')
    (rest : List Char) (d : Nat) (acc : List Char) :
    scanAux (c :: rest) d true false acc =
      scanAux rest d true false (c :: acc) := by
  rw [scanAux, if_pos rfl, if_neg (by simp), if_neg h1, if_neg h2]

/-! ### Scanner-neutral chunks -/

theorem plainChar_iff {c : Char} :
    plainChar c = true ↔ ¬c = '{' ∧ ¬c = '}' ∧ ¬c = '"' := by
  simp only [plainChar, Bool.not_eq_eq_eq_not, Bool.not_true, Bool.or_eq_false_iff,
    decide_eq_false_iff_not]
  tauto

theorem neutral_nil : Neutral [] := by
  intro rest d acc _
  simp

theorem neutral_append {w1 w2 : List Char} (h1 : Neutral w1) (h2 : Neutral w2) :
    Neutral (w1 ++ w2) := by
  intro rest d acc hd
  rw [List.append_assoc, h1 _ _ _ hd, h2 _ _ _ hd]
  simp [List.append_assoc]

theorem neutral_cons_plain {c : Char} (hc : plainChar c = true) {w : List Char}
    (h : Neutral w) : Neutral (c :: w) := by
  obtain ⟨h1, h2, h3⟩ := plainChar_iff.mp hc
  intro rest d acc hd
  rw [List.cons_append, scanAux_step_plain h1 h2 h3, h _ _ _ hd]
  simp [List.append_assoc]

theorem neutral_plain_all {w : List Char} (h : w.all plainChar = true) :
    Neutral w := by
  induction w with
  | nil => exact neutral_nil
  | cons c w ih =>
    simp only [List.all_cons, Bool.and_eq_true] at h
    exact neutral_cons_plain h.1 (ih h.2)

theorem strNeutral_nil : StrNeutral [] := by
  intro rest d acc
  simp

theorem strNeutral_cons_plain {c : Char} (h1 : ¬c = '"') (h2 : ¬c = '\\')
    {w : List Char} (h : StrNeutral w) : StrNeutral (c :: w) := by
  intro rest d acc
  rw [List.cons_append, scanAux_instr_plain h1 h2, h]
  simp [List.append_assoc]

theorem strNeutral_esc (e : Char) {w : List Char} (h : StrNeutral w) :
    StrNeutral ('\\' :: e :: w) := by
  intro rest d acc
  rw [List.cons_append, List.cons_append, scanAux_instr_backslash,
    scanAux_instr_esc, h]
  simp [List.append_assoc]

theorem strPlain_of_hex {c : Char} (h : isHexDigit c = true) :
    ¬c = '"' ∧ ¬c = '\\' := by
  constructor
  · intro he; rw [he] at h; exact absurd h (by decide)
  · intro he; rw [he] at h; exact absurd h (by decide)

theorem neutral_quoted {w : List Char} (h : StrNeutral w) :
    Neutral ('"' :: w ++ ['"']) := by
  intro rest d acc hd
  have e1 : ('"' :: w ++ ['"']) ++ rest = '"' :: (w ++ ('"' :: rest)) := by
    simp [List.append_assoc]
  rw [e1, scanAux_step_quote_open, h, scanAux_instr_quote]
  congr 1
  simp [List.append_assoc]

theorem neutral_braced {mid : List Char} (h : Neutral mid) :
    Neutral ('{' :: mid ++ ['}']) := by
  intro rest d acc hd
  have e1 : ('{' :: mid ++ ['}']) ++ rest = '{' :: (mid ++ ('}' :: rest)) := by
    simp [List.append_assoc]
  rw [e1, scanAux_step_open_deep (by omega), h _ _ _ (by omega),
    scanAux_step_close_deep (by omega)]
  have e2 : d + 1 - 1 = d := by omega
  rw [e2]
  congr 1
  simp [List.append_assoc]

theorem neutral_quote_block {wk t : List Char} (hw : StrNeutral wk)
    (ht : Neutral t) : Neutral ('"' :: wk ++ '"' :: t) := by
  have := neutral_append (neutral_quoted hw) ht
  simpa [List.append_assoc] using this

theorem plain_of_ws {c : Char} (hw : isJsonWs c = true) : plainChar c = true := by
  refine plainChar_iff.mpr ⟨?_, ?_, ?_⟩ <;>
    (intro he; rw [he] at hw; exact absurd hw (by decide))

theorem neutral_ws (l : List Char) : Neutral (l.takeWhile isJsonWs) := by
  refine neutral_plain_all ?_
  rw [List.all_eq_true]
  intro c hc
  exact plain_of_ws (List.mem_takeWhile_imp hc)

theorem skipWs_decomp {l : List Char} {c2 : Char} {r2 : List Char}
    (h : skipWs l = c2 :: r2) :
    l = l.takeWhile isJsonWs ++ (c2 :: r2) := by
  rw [← h]
  exact (List.takeWhile_append_dropWhile (p := isJsonWs) (l := l)).symm

/-! ### Consumption lemmas for the JSON parser -/

theorem strNeutral_append_plain {w : List Char} :
    ∀ hs : List Char, (∀ c ∈ hs, ¬c = '"' ∧ ¬c = '\\') → StrNeutral w →
      StrNeutral (hs ++ w) := by
  intro hs
  induction hs with
  | nil => intro _ hw; simpa using hw
  | cons x hs ih =>
    intro hplain hw
    have hx := hplain x (by simp)
    exact strNeutral_cons_plain hx.1 hx.2
      (ih (fun c hc => hplain c (by simp [hc])) hw)

theorem parseHex4_spec {l hs r : List Char} (h : parseHex4 l = some (hs, r)) :
    l = hs ++ r ∧ ∀ c ∈ hs, isHexDigit c = true := by
  rcases l with _ | ⟨x1, _ | ⟨x2, _ | ⟨x3, _ | ⟨x4, rest3⟩⟩⟩⟩
  · exact Option.noConfusion h
  · exact Option.noConfusion h
  · exact Option.noConfusion h
  · exact Option.noConfusion h
  · rw [parseHex4] at h
    split_ifs at h with hhex
    simp only [Option.some.injEq, Prod.mk.injEq] at h
    simp only [Bool.and_eq_true] at hhex
    rw [← h.1, ← h.2]
    refine ⟨rfl, ?_⟩
    intro c hc
    simp only [List.mem_cons, List.not_mem_nil, or_false] at hc
    rcases hc with hc | hc | hc | hc <;> subst hc
    exacts [hhex.1.1.1, hhex.1.1.2, hhex.1.2, hhex.2]

theorem parseEscCode_spec {l ec r : List Char} (h : parseEscCode l = some (ec, r)) :
    l = ec ++ r ∧ ∀ w, StrNeutral w → StrNeutral ('\\' :: (ec ++ w)) := by
  cases l with
  | nil => exact absurd h (by simp [parseEscCode])
  | cons e rest2 =>
    rw [parseEscCode] at h
    split_ifs at h with hsimple hu
    · simp only [Option.some.injEq, Prod.mk.injEq] at h
      rw [← h.1, ← h.2]
      exact ⟨rfl, fun w hw => strNeutral_esc e hw⟩
    · cases hph : parseHex4 rest2 with
      | none => rw [hph] at h; simp at h
      | some p =>
        obtain ⟨hs, rest3⟩ := p
        rw [hph] at h
        simp only [Option.some.injEq, Prod.mk.injEq] at h
        obtain ⟨hh1, hh2⟩ := parseHex4_spec hph
        rw [← h.1, ← h.2]
        constructor
        · simp [hh1]
        · intro w hw
          refine strNeutral_esc e ?_
          exact strNeutral_append_plain hs
            (fun c hc => strPlain_of_hex (hh2 c hc)) hw

theorem parseStrBody_neutral :
    ∀ (fuel : Nat) (l cs r : List Char), parseStrBody fuel l = some (cs, r) →
      ∃ w, l = w ++ '"' :: r ∧ StrNeutral w := by
  intro fuel
  induction fuel with
  | zero =>
    intro l cs r h
    exact absurd h (by simp [parseStrBody])
  | succ fuel ih =>
    intro l cs r h
    cases l with
    | nil => exact absurd h (by simp [parseStrBody])
    | cons c rest =>
      rw [parseStrBody] at h
      split_ifs at h with hq hb hcontrol
      · simp only [Option.some.injEq, Prod.mk.injEq] at h
        refine ⟨[], ?_, strNeutral_nil⟩
        simp [hq, h.2]
      · cases hec : parseEscCode rest with
        | none => rw [hec] at h; simp at h
        | some p =>
          obtain ⟨ec, rest2⟩ := p
          rw [hec] at h
          replace h : (match parseStrBody fuel rest2 with
            | some (cs', r') => some (c :: (ec ++ cs'), r')
            | none => none) = some (cs, r) := h
          cases hps : parseStrBody fuel rest2 with
          | none => rw [hps] at h; simp at h
          | some p2 =>
            obtain ⟨cs', r'⟩ := p2
            rw [hps] at h
            simp only [Option.some.injEq, Prod.mk.injEq] at h
            obtain ⟨he1, he2⟩ := parseEscCode_spec hec
            obtain ⟨w', hw1, hw2⟩ := ih rest2 cs' r' hps
            refine ⟨c :: (ec ++ w'), ?_, ?_⟩
            · rw [← h.2]
              simp [he1, hw1, List.append_assoc]
            · rw [hb]
              exact he2 w' hw2
      · cases hps : parseStrBody fuel rest with
        | none => rw [hps] at h; simp at h
        | some p =>
          obtain ⟨cs', r'⟩ := p
          rw [hps] at h
          simp only [Option.some.injEq, Prod.mk.injEq] at h
          obtain ⟨w', hw1, hw2⟩ := ih rest cs' r' hps
          refine ⟨c :: w', ?_, strNeutral_cons_plain hq hb hw2⟩
          simp [hw1, h.2]

theorem plain_of_digit {c : Char} (h : c.isDigit = true) : plainChar c = true := by
  refine plainChar_iff.mpr ⟨?_, ?_, ?_⟩ <;>
    (intro he; rw [he] at h; exact absurd h (by decide))

theorem takeWhile_digits_plain (l : List Char) :
    (l.takeWhile Char.isDigit).all plainChar = true := by
  rw [List.all_eq_true]
  intro c hc
  exact plain_of_digit (List.mem_takeWhile_imp hc)

theorem parseIntPart_spec {l ip r : List Char} (h : parseIntPart l = some (ip, r)) :
    l = ip ++ r ∧ ip.all plainChar = true := by
  cases l with
  | nil => exact absurd h (by simp [parseIntPart])
  | cons c rest =>
    rw [parseIntPart] at h
    split_ifs at h with h0 hd
    · simp only [Option.some.injEq, Prod.mk.injEq] at h
      rw [← h.1, ← h.2, h0]
      exact ⟨rfl, by decide⟩
    · simp only [Option.some.injEq, Prod.mk.injEq] at h
      rw [← h.1, ← h.2]
      constructor
      · simp [List.takeWhile_append_dropWhile]
      · simp only [List.all_cons, Bool.and_eq_true]
        exact ⟨plain_of_digit hd, takeWhile_digits_plain rest⟩

theorem parseFrac_spec (l : List Char) :
    (parseFrac l).1 ++ (parseFrac l).2 = l ∧ (parseFrac l).1.all plainChar = true := by
  cases l with
  | nil => simp [parseFrac]
  | cons c rest =>
    rw [parseFrac]
    split_ifs with hdot
    · simp only [Bool.and_eq_true, decide_eq_true_eq] at hdot
      constructor
      · simp [List.takeWhile_append_dropWhile]
      · simp only [List.all_cons, Bool.and_eq_true]
        refine ⟨?_, takeWhile_digits_plain rest⟩
        rw [hdot.1]
        decide
    · simp

theorem parseExp_spec (l : List Char) :
    (parseExp l).1 ++ (parseExp l).2 = l ∧ (parseExp l).1.all plainChar = true := by
  match l with
  | [] => simp [parseExp]
  | [c] => simp [parseExp]
  | c :: s :: r2 =>
    rw [parseExp]
    split_ifs with he hsign hd
    · have hcp : plainChar c = true := by
        rcases (by simpa using he : c = 'e' ∨ c = 'E') with h | h <;>
          (rw [h]; decide)
      simp only [Bool.and_eq_true, Bool.or_eq_true, decide_eq_true_eq] at hsign
      have hsp : plainChar s = true := by
        rcases hsign.1 with h | h <;> (rw [h]; decide)
      constructor
      · simp [List.takeWhile_append_dropWhile]
      · simp only [List.all_cons, Bool.and_eq_true]
        exact ⟨hcp, hsp, takeWhile_digits_plain r2⟩
    · have hcp : plainChar c = true := by
        rcases (by simpa using he : c = 'e' ∨ c = 'E') with h | h <;>
          (rw [h]; decide)
      constructor
      · simp [List.takeWhile_append_dropWhile]
      · simp only [List.all_cons, Bool.and_eq_true]
        refine ⟨hcp, ?_⟩
        exact takeWhile_digits_plain (s :: r2)
    · simp
    · simp

theorem parseNum_neutral {l ds r : List Char} (h : parseNum l = some (ds, r)) :
    l = ds ++ r ∧ Neutral ds := by
  cases l with
  | nil => exact absurd h (by simp [parseNum])
  | cons c l1 =>
    rw [parseNum] at h
    split_ifs at h with hminus
    · cases hip : parseIntPart l1 with
      | none => rw [hip] at h; simp at h
      | some p =>
        obtain ⟨ip, r1⟩ := p
        rw [hip] at h
        simp only [Option.some.injEq, Prod.mk.injEq] at h
        obtain ⟨hi1, hi2⟩ := parseIntPart_spec hip
        obtain ⟨hf1, hf2⟩ := parseFrac_spec r1
        obtain ⟨he1, he2⟩ := parseExp_spec (parseFrac r1).2
        constructor
        · rw [← h.1, ← h.2]
          simp only [List.cons_append, List.append_assoc, List.cons.injEq, true_and]
          rw [he1, hf1]
          exact hi1
        · rw [← h.1]
          refine neutral_cons_plain (by rw [hminus]; decide) (neutral_plain_all ?_)
          simp only [List.all_append, Bool.and_eq_true]
          exact ⟨hi2, hf2, he2⟩
    · cases hip : parseIntPart (c :: l1) with
      | none => rw [hip] at h; simp at h
      | some p =>
        obtain ⟨ip, r1⟩ := p
        rw [hip] at h
        simp only [Option.some.injEq, Prod.mk.injEq] at h
        obtain ⟨hi1, hi2⟩ := parseIntPart_spec hip
        obtain ⟨hf1, hf2⟩ := parseFrac_spec r1
        obtain ⟨he1, he2⟩ := parseExp_spec (parseFrac r1).2
        constructor
        · rw [← h.1, ← h.2]
          simp only [List.append_assoc]
          rw [he1, hf1]
          exact hi1
        · rw [← h.1]
          refine neutral_plain_all ?_
          simp only [List.all_append, Bool.and_eq_true]
          exact ⟨hi2, hf2, he2⟩

theorem skipWs_self_decomp (l : List Char) :
    l = l.takeWhile isJsonWs ++ skipWs l := by
  rw [skipWs]
  exact (List.takeWhile_append_dropWhile _ _).symm

/-- A successful parse consumes a scanner-neutral chunk: for a value, the
consumed text crosses the scanner without changing its state; for object
members (resp. array elements) the consumed text is neutral up to the
closing `\x7d` (resp. `]`). -/
theorem parseF_consume :
    ∀ fuel : Nat,
      (∀ l v r, parseF fuel PMode.value l = some (v, r) →
        ∃ w, l = w ++ r ∧ Neutral w) ∧
      (∀ acc l v r, parseF fuel (PMode.members acc) l = some (v, r) →
        ∃ w, l = w ++ '}' :: r ∧ Neutral w) ∧
      (∀ acc l v r, parseF fuel (PMode.elems acc) l = some (v, r) →
        ∃ w, l = w ++ ']' :: r ∧ Neutral w) := by
  intro fuel
  induction fuel with
  | zero =>
    exact ⟨fun l v r h => absurd h (by simp [parseF]),
      fun acc l v r h => absurd h (by simp [parseF]),
      fun acc l v r h => absurd h (by simp [parseF])⟩
  | succ fuel ih =>
    obtain ⟨ihv, ihm, ihe⟩ := ih
    refine ⟨?_, ?_, ?_⟩
    · -- a single value
      intro l v r h
      cases l with
      | nil => exact absurd h (by simp [parseF])
      | cons c rest =>
        rw [parseF] at h
        split_ifs at h with hc hbr hq ht hf hn hnan hinf hninf
        · -- object
          split at h
          · rename_i c2 r2 hsw
            split_ifs at h with hc2
            · simp only [Option.some.injEq, Prod.mk.injEq] at h
              refine ⟨'{' :: rest.takeWhile isJsonWs ++ ['}'], ?_,
                neutral_braced (neutral_ws rest)⟩
              conv_lhs => rw [hc, skipWs_decomp hsw, hc2, h.2]
              simp [List.append_assoc]
            · obtain ⟨w2, hw1, hw2⟩ := ihm [] (c2 :: r2) v r h
              refine ⟨'{' :: (rest.takeWhile isJsonWs ++ w2) ++ ['}'], ?_,
                neutral_braced (neutral_append (neutral_ws rest) hw2)⟩
              conv_lhs => rw [hc, skipWs_decomp hsw, hw1]
              simp [List.append_assoc]
          · exact absurd h (by simp)
        · -- array
          split at h
          · rename_i c2 r2 hsw
            split_ifs at h with hc2
            · simp only [Option.some.injEq, Prod.mk.injEq] at h
              refine ⟨'[' :: rest.takeWhile isJsonWs ++ [']'], ?_,
                neutral_cons_plain (by decide)
                  (neutral_append (neutral_ws rest) (neutral_plain_all (by decide)))⟩
              conv_lhs => rw [hbr, skipWs_decomp hsw, hc2, h.2]
              simp [List.append_assoc]
            · obtain ⟨w2, hw1, hw2⟩ := ihe [] (c2 :: r2) v r h
              refine ⟨'[' :: (rest.takeWhile isJsonWs ++ (w2 ++ [']'])), ?_,
                neutral_cons_plain (by decide)
                  (neutral_append (neutral_ws rest)
                    (neutral_append hw2 (neutral_plain_all (by decide))))⟩
              conv_lhs => rw [hbr, skipWs_decomp hsw, hw1]
              simp [List.append_assoc]
          · exact absurd h (by simp)
        · -- string
          split at h
          · rename_i cs' r' hpsb
            simp only [Option.some.injEq, Prod.mk.injEq] at h
            obtain ⟨wk, hw1, hw2⟩ := parseStrBody_neutral _ _ _ _ hpsb
            refine ⟨'"' :: wk ++ ['"'], ?_, neutral_quoted hw2⟩
            conv_lhs => rw [hq, hw1, h.2]
            simp [List.append_assoc]
          · exact absurd h (by simp)
        · -- true
          simp only [Option.some.injEq, Prod.mk.injEq] at h
          refine ⟨(c :: rest).take 4, ?_, ?_⟩
          · rw [← h.2]
            exact (List.take_append_drop 4 (c :: rest)).symm
          · rw [ht]
            exact neutral_plain_all (by decide)
        · -- false
          simp only [Option.some.injEq, Prod.mk.injEq] at h
          refine ⟨(c :: rest).take 5, ?_, ?_⟩
          · rw [← h.2]
            exact (List.take_append_drop 5 (c :: rest)).symm
          · rw [hf]
            exact neutral_plain_all (by decide)
        · -- null
          simp only [Option.some.injEq, Prod.mk.injEq] at h
          refine ⟨(c :: rest).take 4, ?_, ?_⟩
          · rw [← h.2]
            exact (List.take_append_drop 4 (c :: rest)).symm
          · rw [hn]
            exact neutral_plain_all (by decide)
        · -- NaN
          simp only [Option.some.injEq, Prod.mk.injEq] at h
          refine ⟨(c :: rest).take 3, ?_, ?_⟩
          · rw [← h.2]
            exact (List.take_append_drop 3 (c :: rest)).symm
          · rw [hnan]
            exact neutral_plain_all (by decide)
        · -- Infinity
          simp only [Option.some.injEq, Prod.mk.injEq] at h
          refine ⟨(c :: rest).take 8, ?_, ?_⟩
          · rw [← h.2]
            exact (List.take_append_drop 8 (c :: rest)).symm
          · rw [hinf]
            exact neutral_plain_all (by decide)
        · -- -Infinity
          simp only [Option.some.injEq, Prod.mk.injEq] at h
          refine ⟨(c :: rest).take 9, ?_, ?_⟩
          · rw [← h.2]
            exact (List.take_append_drop 9 (c :: rest)).symm
          · rw [hninf]
            exact neutral_plain_all (by decide)
        · -- number
          split at h
          · rename_i ds r' hpn
            simp only [Option.some.injEq, Prod.mk.injEq] at h
            obtain ⟨hn1, hn2⟩ := parseNum_neutral hpn
            refine ⟨ds, ?_, hn2⟩
            rw [hn1, h.2]
          · exact absurd h (by simp)
    · -- object members
      intro acc l v r h
      cases l with
      | nil => exact absurd h (by simp [parseF])
      | cons c rest =>
        rw [parseF] at h
        split_ifs at h with hc
        · split at h
          · rename_i key r1 hpsb
            obtain ⟨wk, hwk1, hwk2⟩ := parseStrBody_neutral _ _ _ _ hpsb
            split at h
            · rename_i c2 r2 hsw1
              split_ifs at h with hc2
              · split at h
                · rename_i vv r3 hpv
                  obtain ⟨wv, hwv1, hwv2⟩ := ihv (skipWs r2) vv r3 hpv
                  split at h
                  · rename_i c3 r4 hsw3
                    split_ifs at h with hc3 hc3b
                    · -- comma: a further member follows
                      obtain ⟨wm, hwm1, hwm2⟩ := ihm _ (skipWs r4) v r h
                      have e1 : r1 = r1.takeWhile isJsonWs ++ (':' :: r2) := by
                        rw [← hc2]; exact skipWs_decomp hsw1
                      have e2 : r2 = r2.takeWhile isJsonWs ++ (wv ++ r3) := by
                        have := skipWs_self_decomp r2; rw [hwv1] at this; exact this
                      have e3 : r3 = r3.takeWhile isJsonWs ++ (',' :: r4) := by
                        rw [← hc3]; exact skipWs_decomp hsw3
                      have e4 : r4 = r4.takeWhile isJsonWs ++ (wm ++ '}' :: r) := by
                        have := skipWs_self_decomp r4; rw [hwm1] at this; exact this
                      refine ⟨'"' :: wk ++ '"' :: (r1.takeWhile isJsonWs ++
                        ':' :: (r2.takeWhile isJsonWs ++ (wv ++
                          (r3.takeWhile isJsonWs ++ ',' ::
                            (r4.takeWhile isJsonWs ++ wm))))), ?_, ?_⟩
                      · conv_lhs => rw [hc, hwk1, e1, e2, e3, e4]
                        simp [List.append_assoc]
                      · refine neutral_quote_block hwk2 ?_
                        refine neutral_append (neutral_ws r1)
                          (neutral_cons_plain (by decide) ?_)
                        refine neutral_append (neutral_ws r2)
                          (neutral_append hwv2 ?_)
                        refine neutral_append (neutral_ws r3)
                          (neutral_cons_plain (by decide) ?_)
                        exact neutral_append (neutral_ws r4) hwm2
                    · -- closing brace: the object ends here
                      simp only [Option.some.injEq, Prod.mk.injEq] at h
                      have e1 : r1 = r1.takeWhile isJsonWs ++ (':' :: r2) := by
                        rw [← hc2]; exact skipWs_decomp hsw1
                      have e2 : r2 = r2.takeWhile isJsonWs ++ (wv ++ r3) := by
                        have := skipWs_self_decomp r2; rw [hwv1] at this; exact this
                      have e3 : r3 = r3.takeWhile isJsonWs ++ ('}' :: r) := by
                        rw [← hc3b, ← h.2]; exact skipWs_decomp hsw3
                      refine ⟨'"' :: wk ++ '"' :: (r1.takeWhile isJsonWs ++
                        ':' :: (r2.takeWhile isJsonWs ++ (wv ++
                          r3.takeWhile isJsonWs))), ?_, ?_⟩
                      · conv_lhs => rw [hc, hwk1, e1, e2, e3]
                        simp [List.append_assoc]
                      · refine neutral_quote_block hwk2 ?_
                        refine neutral_append (neutral_ws r1)
                          (neutral_cons_plain (by decide) ?_)
                        refine neutral_append (neutral_ws r2)
                          (neutral_append hwv2 (neutral_ws r3))
                  · exact absurd h (by simp)
                · exact absurd h (by simp)
            · exact absurd h (by simp)
          · exact absurd h (by simp)
    · -- array elements
      intro acc l v r h
      rw [parseF] at h
      split at h
      · rename_i vv r1 hpv
        obtain ⟨wv, hwv1, hwv2⟩ := ihv l vv r1 hpv
        split at h
        · rename_i c2 r2 hsw
          split_ifs at h with hc2 hc2b
          · -- comma: a further element follows
            obtain ⟨we, hwe1, hwe2⟩ := ihe _ (skipWs r2) v r h
            have e1 : r1 = r1.takeWhile isJsonWs ++ (',' :: r2) := by
              rw [← hc2]; exact skipWs_decomp hsw
            have e2 : r2 = r2.takeWhile isJsonWs ++ (we ++ ']' :: r) := by
              have := skipWs_self_decomp r2; rw [hwe1] at this; exact this
            refine ⟨wv ++ (r1.takeWhile isJsonWs ++ ',' ::
              (r2.takeWhile isJsonWs ++ we)), ?_, ?_⟩
            · conv_lhs => rw [hwv1, e1, e2]
              simp [List.append_assoc]
            · refine neutral_append hwv2 ?_
              refine neutral_append (neutral_ws r1)
                (neutral_cons_plain (by decide) ?_)
              exact neutral_append (neutral_ws r2) hwe2
          · -- closing bracket: the array ends here
            simp only [Option.some.injEq, Prod.mk.injEq] at h
            have e1 : r1 = r1.takeWhile isJsonWs ++ (']' :: r) := by
              rw [← hc2b, ← h.2]; exact skipWs_decomp hsw
            refine ⟨wv ++ r1.takeWhile isJsonWs, ?_, ?_⟩
            · conv_lhs => rw [hwv1, e1]
              simp [List.append_assoc]
            · exact neutral_append hwv2 (neutral_ws r1)
        · exact absurd h (by simp)
      · exact absurd h (by simp)

/-! ### Assembling the well-formed pass-through -/

/-- At depth zero, text without braces-opening or quote characters is
skipped by the scanner without emitting anything. -/
theorem scanAux_prose :
    ∀ (p : List Char), (∀ c ∈ p, ¬c = '{' ∧ ¬c = '"') →
      ∀ rest acc, scanAux (p ++ rest) 0 false false acc =
        scanAux rest 0 false false (p.reverse ++ acc) := by
  intro p
  induction p with
  | nil => intro _ rest acc; simp
  | cons c p ih =>
    intro hp rest acc
    have hc := hp c (List.mem_cons_self c p)
    have hp' : ∀ x ∈ p, ¬x = '{' ∧ ¬x = '"' :=
      fun x hx => hp x (List.mem_cons_of_mem c hx)
    by_cases hcl : c = '}'
    · subst hcl
      rw [List.cons_append, scanAux, if_neg (by simp), if_neg hc.1, if_pos rfl,
        if_neg (by omega : ¬(0 : Nat) = 1)]
      have h0 : (0 : Nat) - 1 = 0 := rfl
      rw [h0, ih hp' rest ('}' :: acc)]
      simp [List.append_assoc]
    · rw [List.cons_append, scanAux_step_plain hc.1 hcl hc.2,
        ih hp' rest (c :: acc)]
      simp [List.append_assoc]

theorem hasRepairMatch_tail {c : Char} {rest : List Char}
    (h : hasRepairMatch (c :: rest) = false) : hasRepairMatch rest = false := by
  rw [hasRepairMatch] at h
  exact (Bool.or_eq_false_iff.mp h).2

/-- If the repair regex matches nowhere, the substitution loop is the
identity, whatever the fuel. -/
theorem repairGo_id (ph : List Char) :
    ∀ (fuel : Nat) (l : List Char), hasRepairMatch l = false →
      repairGo ph fuel l = l := by
  intro fuel
  induction fuel with
  | zero => intro l _; rfl
  | succ fuel ih =>
    intro l hl
    cases l with
    | nil => rfl
    | cons c rest =>
      rw [repairGo]
      split_ifs with hc
      · cases hdw : rest.dropWhile isSubWs with
        | nil =>
          rw [ih rest (hasRepairMatch_tail hl)]
        | cons d tail =>
          show (if barewordStart d = true then
              ':' :: ' ' :: (ph ++ repairGo ph fuel (tail.dropWhile barewordCont))
            else c :: repairGo ph fuel rest) = c :: rest
          split_ifs with hbw
          · exfalso
            rw [hasRepairMatch, hdw] at hl
            simp [hc, hbw] at hl
          · rw [ih rest (hasRepairMatch_tail hl)]
      · rw [ih rest (hasRepairMatch_tail hl)]

theorem normalize_id_of_no_pairs {s : String}
    (h1 : hasPair '\\' '{' s.data = false)
    (h2 : hasPair '\\' '}' s.data = false)
    (h3 : hasPair '\\' '_' s.data = false) :
    normalize s = s := by
  unfold normalize
  rw [replacePair_of_no_pair '{' s.data h1, replacePair_of_no_pair '}' s.data h2,
    replacePair_of_no_pair '_' s.data h3]

theorem replace_undefined_id {s : String} (h : hasRepairMatch s.data = false) :
    replace_undefined s = s := by
  unfold replace_undefined
  rw [repairGo_id _ _ _ h]

/-- A brace-delimited span whose body is scanner-neutral, surrounded by
prose without `\x7b` or `"`, is the unique span found by the scanner. -/
theorem candidates_of_span (mid : List Char) (hmid : Neutral mid)
    (p1 p2 : List Char)
    (hp1 : ∀ c ∈ p1, ¬c = '{' ∧ ¬c = '"')
    (hp2 : ∀ c ∈ p2, ¬c = '{' ∧ ¬c = '"') :
    scanAux (p1 ++ (('{' :: mid ++ ['}']) ++ p2)) 0 false false [] =
      ['{' :: mid ++ ['}']] := by
  rw [scanAux_prose p1 hp1]
  have e : ('{' :: mid ++ ['}']) ++ p2 = '{' :: (mid ++ ('}' :: p2)) := by
    simp [List.append_assoc]
  rw [e, scanAux_step_open_top, hmid _ _ _ (le_refl 1), scanAux_step_close_emit]
  have e2 : scanAux p2 0 false false [] = [] := by
    have e3 : p2 = p2 ++ [] := by simp
    rw [e3, scanAux_prose p2 hp2]
    rfl
  rw [e2]
  simp

theorem rest_nil_of_last {J mid r : List Char}
    (hJ : J = ('{' :: mid ++ ['}']) ++ r) (hlast : J.getLast? = some '}')
    (hre : skipWs r = []) : r = [] := by
  cases r with
  | nil => rfl
  | cons x xs =>
    exfalso
    have hwsall : ∀ c ∈ x :: xs, isJsonWs c = true := by
      rw [skipWs] at hre
      exact List.dropWhile_eq_nil_iff.mp hre
    rw [hJ, List.getLast?_append_of_ne_nil _ (by simp)] at hlast
    have hmem : '}' ∈ x :: xs := List.mem_of_mem_getLast? hlast
    exact absurd (hwsall '}' hmem) (by decide)

/-- C1 (amended): for every string `J` that is valid JSON, is exactly a
brace-delimited object (first character `\x7b`, last character `\x7d`),
contains no escape artifacts (`\\x7b`, `\\x7d`, `\_`) and no occurrence of
the repair pattern (colon, optional whitespace, bareword), and all prose
strings `p1`, `p2` containing no `\x7b` and no `"` characters, the
extraction of `p1 ++ J ++ p2` contains `J` itself as a candidate, and
normalization is a no-op on `J`. -/
theorem extract_wellformed_passthrough (J p1 p2 : String)
    (hval : is_valid_json J = true)
    (hhead : J.data.head? = some '{')
    (hlast : J.data.getLast? = some '}')
    (hesc1 : hasPair '\\' '{' J.data = false)
    (hesc2 : hasPair '\\' '}' J.data = false)
    (hesc3 : hasPair '\\' '_' J.data = false)
    (hrep : hasRepairMatch J.data = false)
    (hp1 : p1.data.all (fun c => !(c = '{') && !(c = '"')) = true)
    (hp2 : p2.data.all (fun c => !(c = '{') && !(c = '"')) = true) :
    J ∈ extract_top_level_json (p1 ++ J ++ p2) ∧ normalize J = J := by
  have hp1' : ∀ c ∈ p1.data, ¬c = '{' ∧ ¬c = '"' := by
    intro c hc
    simpa using List.all_eq_true.mp hp1 c hc
  have hp2' : ∀ c ∈ p2.data, ¬c = '{' ∧ ¬c = '"' := by
    intro c hc
    simpa using List.all_eq_true.mp hp2 c hc
  obtain ⟨v, hv⟩ : ∃ v, parseJson J = some v := by
    simpa [is_valid_json, Option.isSome_iff_exists] using hval
  obtain ⟨t, hJ⟩ : ∃ t, J.data = '{' :: t := by
    cases hJd : J.data with
    | nil => rw [hJd] at hhead; simp at hhead
    | cons c t =>
      rw [hJd] at hhead
      simp only [List.head?_cons, Option.some.injEq] at hhead
      exact ⟨t, by rw [hhead]⟩
  have hskip : skipWs J.data = J.data := by
    rw [hJ, skipWs, List.dropWhile_cons, if_neg (by decide)]
  rw [parseJson] at hv
  split at hv
  · rename_i v0 r hpf
    split_ifs at hv with hre
    · -- hpf : the value parse; hre : only whitespace remains
      rw [hskip, hJ] at hpf
      obtain ⟨n, hn⟩ : ∃ n, 3 * J.length + 3 = n + 1 := ⟨3 * J.length + 2, by omega⟩
      rw [hn, parseF, if_pos rfl] at hpf
      have hspan : ∃ mid, J.data = ('{' :: mid ++ ['}']) ++ r ∧ Neutral mid := by
        rcases hsp : skipWs t with _ | ⟨c2, r2⟩
        · rw [hsp] at hpf
          exact absurd hpf (by simp)
        · rw [hsp] at hpf
          replace hpf : (if c2 = '}' then some (Json.obj [], r2)
              else parseF n (PMode.members []) (c2 :: r2)) = some (v0, r) := hpf
          split_ifs at hpf with hc2
          · simp only [Option.some.injEq, Prod.mk.injEq] at hpf
            refine ⟨t.takeWhile isJsonWs, ?_, neutral_ws t⟩
            conv_lhs => rw [hJ, skipWs_decomp hsp, hc2, hpf.2]
            simp [List.append_assoc]
          · obtain ⟨wm, hwm1, hwm2⟩ := (parseF_consume n).2.1 [] (c2 :: r2) v0 r hpf
            refine ⟨t.takeWhile isJsonWs ++ wm, ?_,
              neutral_append (neutral_ws t) hwm2⟩
            conv_lhs => rw [hJ, skipWs_decomp hsp, hwm1]
            simp [List.append_assoc]
      obtain ⟨mid, hmid1, hmid2⟩ := hspan
      have hr : r = [] := rest_nil_of_last hmid1 hlast hre
      rw [hr, List.append_nil] at hmid1
      have hcand : get_json_candidates (p1 ++ J ++ p2) = [J] := by
        unfold get_json_candidates
        have hd : (p1 ++ J ++ p2).data = p1.data ++ (J.data ++ p2.data) := by
          rw [String.data_append, String.data_append, List.append_assoc]
        rw [hd, hmid1, candidates_of_span mid hmid2 p1.data p2.data hp1' hp2']
        rw [← hmid1]
        rfl
      have hnorm : normalize J = J := normalize_id_of_no_pairs hesc1 hesc2 hesc3
      have hrep' : replace_undefined J = J := replace_undefined_id hrep
      refine ⟨?_, hnorm⟩
      unfold extract_top_level_json
      rw [hcand]
      simp [hnorm, hrep', hval]
  · exact absurd hv (by simp)

/-- C1 counterexample: the claim as stated fails.  For the syntactically
valid standalone JSON object `J = \x7b"a": true\x7d` (with no escape
artifacts, so normalization is a no-op) and empty surrounding prose, the
extraction contains no candidate structurally equal to `J`: the value
repairer rewrites `true`, and the only candidate parses to a different
value. -/
theorem extract_wellformed_passthrough_fails :
    is_valid_json "\x7b\"a\": true\x7d" = true ∧
    normalize "\x7b\"a\": true\x7d" = "\x7b\"a\": true\x7d" ∧
    extract_top_level_json ("" ++ "\x7b\"a\": true\x7d" ++ "") =
      ["\x7b\"a\": \"<undefined>\"\x7d"] ∧
    parseJson "\x7b\"a\": \"<undefined>\"\x7d" ≠ parseJson "\x7b\"a\": true\x7d" := by
  refine ⟨rfl, rfl, rfl, ?_⟩
  intro hcontra
  have h1 : parseJson "\x7b\"a\": \"<undefined>\"\x7d" =
      some (Json.obj [(['a'], Json.str "<undefined>".data)]) := rfl
  have h2 : parseJson "\x7b\"a\": true\x7d" =
      some (Json.obj [(['a'], Json.bool true)]) := rfl
  rw [h1, h2] at hcontra
  simp at hcontra

/-- C1 witness: a concrete valid object `\x7b"a": 1\x7d` with prose around
it satisfies every hypothesis of the amended claim, and is itself among the
extracted candidates. -/
theorem extract_wellformed_passthrough_witness :
    (is_valid_json "\x7b\"a\": 1\x7d" = true ∧
      hasRepairMatch (String.data "\x7b\"a\": 1\x7d") = false) ∧
    ("\x7b\"a\": 1\x7d" : String) ∈
      extract_top_level_json ("hello " ++ "\x7b\"a\": 1\x7d" ++ " world.") ∧
    normalize "\x7b\"a\": 1\x7d" = "\x7b\"a\": 1\x7d" :=
  ⟨⟨by decide, by decide⟩,
    extract_wellformed_passthrough "\x7b\"a\": 1\x7d" "hello " " world."
      (by decide) (by decide) (by decide) (by decide) (by decide) (by decide)
      (by decide) (by decide) (by decide)⟩

end Langroid
